import Mathlib

/-!
Verification of the device-agnostic reduction engine described by the
repository's specification, together with the tutorial example
`SumExampleWithFunctional.cpp` (the only caller present in the sources).
The engine itself (`TNL::Algorithms::reduce`) is not part of the source
fragment, so every engine definition below is modelled from the spec;
the example's `sum` is embedded from the source file.
-/

namespace TNL

/-- Modelled from the spec: the Execution Target tag — a closed tagged
variant `{SequentialHost, ParallelHost, Accelerator}`; the parallel targets
carry the available parallelism `P` (thread count, or the accelerator
block/grid configuration). -/
inductive ExecutionTarget where
  | SequentialHost : ExecutionTarget
  | ParallelHost : Nat → ExecutionTarget
  | Accelerator : Nat → ExecutionTarget
deriving DecidableEq

/-- Modelled from the spec: the error taxonomy of the reduction engine:
`InvalidRangeError`, `EmptyReductionError`, `ElementComputationError`. -/
inductive ReduceError where
  | InvalidRangeError : ReduceError
  | EmptyReductionError : ReduceError
  | ElementComputationError : ReduceError
deriving DecidableEq

/-- Modelled from the spec: the list of indices of the range `[start, stop)`
over a signed integer index type, in increasing order. -/
def indicesOf (start stop : Int) : List Int :=
  (List.range (stop - start).toNat).map (fun (k : Nat) => start + (k : Int))

/-- Modelled from the spec: invoke a fallible per-element function on every
element of a list, left to right; a fault (`none`) on any element makes the
whole traversal fault. Used both to fetch the values of one block and to
collect the partial results of all blocks. -/
def traverseOption (f : β → Option α) : List β → Option (List α)
  | [] => some []
  | b :: bs =>
    match f b with
    | none => none
    | some v =>
      match traverseOption f bs with
      | none => none
      | some vs => some (v :: vs)

/-- Modelled from the spec: left-to-right fold of a list of values with a
fallible combine, starting from an accumulator. -/
def foldLeftM (combine : α → α → Option α) : α → List α → Option α
  | acc, [] => some acc
  | acc, x :: xs =>
    match combine acc x with
    | none => none
    | some y => foldLeftM combine y xs

/-- Modelled from the spec: one worker sequentially folds its block via
`fetch` then `combine`, left-to-right within the block, seeded with the
first fetched value (blocks handed to workers are never empty). -/
def blockFold (fetch : Int → Option α) (combine : α → α → Option α)
    (block : List Int) : Option α :=
  match traverseOption fetch block with
  | none => none
  | some [] => none
  | some (v :: vs) => foldLeftM combine v vs

/-- Modelled from the spec: block decomposition is a deterministic function
of the range length and `P`: `P` contiguous block sizes that sum to `n`,
the remainder spread over the first blocks. -/
def blockSizes (n P : Nat) : List Nat :=
  (List.range P).map (fun i => n / P + if i < n % P then 1 else 0)

/-- Modelled from the spec: split a list into contiguous chunks of the
given sizes. -/
def splitBySizes : List Nat → List α → List (List α)
  | [], _ => []
  | s :: ss, l => l.take s :: splitBySizes ss (l.drop s)

/-- Modelled from the spec: the number of workers actually used: at most
the available parallelism `P`, at most one worker per element, and at
least one. -/
def effectiveWorkers (P n : Nat) : Nat := max 1 (min P n)

/-- Modelled from the spec: the deterministic decomposition of the index
range into contiguous blocks, one per effective worker. -/
def decompose (P : Nat) (idx : List Int) : List (List Int) :=
  splitBySizes (blockSizes idx.length (effectiveWorkers P idx.length)) idx

/-- Modelled from the spec: one round of the pairwise binary-tree combine:
adjacent partial results are combined, an odd trailing element is kept. -/
def pairPass (combine : α → α → Option α) : List α → Option (List α)
  | [] => some []
  | [x] => some [x]
  | x :: y :: rest =>
    match combine x y with
    | none => none
    | some z =>
      match pairPass combine rest with
      | none => none
      | some rest2 => some (z :: rest2)

/-- Modelled from the spec: the binary-tree combine of the partial results,
iterating pairwise rounds down to one value; the fuel bounds the number of
rounds and is never exhausted when it starts at the list length. -/
def treeCombineAux (combine : α → α → Option α) : Nat → List α → Option α
  | _, [] => none
  | _, [x] => some x
  | 0, _ :: _ :: _ => none
  | fuel + 1, x :: y :: rest =>
    match pairPass combine (x :: y :: rest) with
    | none => none
    | some l2 => treeCombineAux combine fuel l2

/-- Modelled from the spec: combine the list of partial results pairwise in
a binary-tree pattern down to one value. -/
def treeCombine (combine : α → α → Option α) (l : List α) : Option α :=
  treeCombineAux combine l.length l

/-- Modelled from the spec: the device-parallel strategy: partition the
index range into contiguous blocks, fold each block left-to-right, then
combine the partial results pairwise in a binary-tree pattern. -/
def parFold (P : Nat) (fetch : Int → Option α) (combine : α → α → Option α)
    (idx : List Int) : Option α :=
  match traverseOption (blockFold fetch combine) (decompose P idx) with
  | none => none
  | some ps => treeCombine combine ps

/-- Modelled from the spec: dispatch on the Execution Target tag: the
sequential-host target folds the entire range left-to-right with no
decomposition; the parallel-host and accelerator targets use the block
decomposition with their parallelism `P`. -/
def reduceCompute (target : ExecutionTarget) (fetch : Int → Option α)
    (combine : α → α → Option α) (idx : List Int) : Option α :=
  match target with
  | .SequentialHost => blockFold fetch combine idx
  | .ParallelHost P => parFold P fetch combine idx
  | .Accelerator P => parFold P fetch combine idx

/-- Modelled from the spec: the public reduction engine
`reduce(target, start, stop, fetch, combine, identity?)`. `start > stop`
fails with `InvalidRangeError`; an empty range returns the identity if one
is supplied and fails with `EmptyReductionError` otherwise; a fault of
`fetch` or `combine` fails with `ElementComputationError`. -/
def reduce (target : ExecutionTarget) (start stop : Int)
    (fetch : Int → Option α) (combine : α → α → Option α)
    (identity : Option α) : Except ReduceError α :=
  if stop < start then .error .InvalidRangeError
  else if start = stop then
    match identity with
    | some e => .ok e
    | none => .error .EmptyReductionError
  else
    match reduceCompute target fetch combine (indicesOf start stop) with
    | some v => .ok v
    | none => .error .ElementComputationError

/-- Modelled from the spec (reference semantics for refinement): the naive
sequential left-to-right fold of `fetch` over `[start, stop)`, with the
same range error conditions as the engine. -/
def naiveReduceSpec (start stop : Int) (f : Int → α) (op : α → α → α)
    (identity : Option α) : Except ReduceError α :=
  if stop < start then .error .InvalidRangeError
  else
    match (indicesOf start stop).map f with
    | [] =>
      match identity with
      | some e => .ok e
      | none => .error .EmptyReductionError
    | v :: vs => .ok (vs.foldl op v)

instance {ε α : Type} [DecidableEq ε] [DecidableEq α] : DecidableEq (Except ε α) :=
  fun x y =>
    match x, y with
    | .error a, .error b => decidable_of_iff (a = b) (by simp)
    | .ok a, .ok b => decidable_of_iff (a = b) (by simp)
    | .error _, .ok _ => isFalse (by simp)
    | .ok _, .error _ => isFalse (by simp)

/-- Left-to-right fold of a nonempty list of values, seeded with its first
element; `none` on the empty list. The reference shape every target's
result is compared against. -/
def fold1 (op : α → α → α) : List α → Option α
  | [] => none
  | v :: vs => some (List.foldl op v vs)

theorem indicesOf_self (n : Int) : indicesOf n n = [] := by
  simp [indicesOf]

theorem indicesOf_length (start stop : Int) :
    (indicesOf start stop).length = (stop - start).toNat := by
  simp [indicesOf]

theorem mem_indicesOf {start stop i : Int} :
    i ∈ indicesOf start stop ↔ start ≤ i ∧ i < stop := by
  simp only [indicesOf, List.mem_map, List.mem_range]
  constructor
  · rintro ⟨k, hk, rfl⟩
    omega
  · intro h
    exact ⟨(i - start).toNat, by omega, by omega⟩

theorem traverseOption_eq_map {f : β → Option α} {g : β → α} :
    ∀ {l : List β}, (∀ b ∈ l, f b = some (g b)) →
      traverseOption f l = some (l.map g)
  | [], _ => rfl
  | b :: bs, h => by
    have hb : f b = some (g b) := h b (List.mem_cons_self b bs)
    have hbs := traverseOption_eq_map (f := f) (g := g)
      (fun x hx => h x (List.mem_cons_of_mem b hx))
    simp [traverseOption, hb, hbs]

theorem traverseOption_none {f : β → Option α} :
    ∀ {l : List β} {b : β}, b ∈ l → f b = none → traverseOption f l = none
  | [], _, hb, _ => absurd hb (List.not_mem_nil _)
  | x :: xs, b, hb, hf => by
    rcases List.mem_cons.mp hb with rfl | htail
    · simp [traverseOption, hf]
    · have := traverseOption_none (f := f) htail hf
      cases hfx : f x <;> simp [traverseOption, hfx, this]

theorem traverseOption_length {f : β → Option α} :
    ∀ {l : List β} {vs : List α}, traverseOption f l = some vs →
      vs.length = l.length
  | [], vs, h => by
    simp [traverseOption] at h
    simp [← h]
  | b :: bs, vs, h => by
    cases hfb : f b with
    | none => simp [traverseOption, hfb] at h
    | some v =>
      cases hrest : traverseOption f bs with
      | none => simp [traverseOption, hfb, hrest] at h
      | some ws =>
        have := traverseOption_length (f := f) hrest
        simp [traverseOption, hfb, hrest] at h
        simp [← h, this]

theorem foldLeftM_pure {combine : α → α → Option α} {op : α → α → α}
    (hc : ∀ a b, combine a b = some (op a b)) :
    ∀ (l : List α) (a : α), foldLeftM combine a l = some (List.foldl op a l)
  | [], a => rfl
  | x :: xs, a => by
    simp [foldLeftM, hc a x, foldLeftM_pure hc xs (op a x), List.foldl]

theorem blockFold_pure {fetch : Int → Option α} {f : Int → α}
    {combine : α → α → Option α} {op : α → α → α}
    (hc : ∀ a b, combine a b = some (op a b)) :
    ∀ {block : List Int}, (∀ i ∈ block, fetch i = some (f i)) →
      blockFold fetch combine block = fold1 op (block.map f)
  | [], _ => rfl
  | i :: is, hf => by
    have h := traverseOption_eq_map (f := fetch) (g := f) hf
    simp only [blockFold, h, List.map_cons]
    simp [foldLeftM_pure hc, fold1]

theorem splitBySizes_flatten :
    ∀ (ss : List Nat) (l : List α), ss.sum = l.length →
      (splitBySizes ss l).flatten = l
  | [], l, h => by
    simp only [List.sum_nil] at h
    simp [splitBySizes, (List.length_eq_zero.mp h.symm).symm]
  | s :: ss, l, h => by
    simp only [List.sum_cons] at h
    have hrec : ss.sum = (l.drop s).length := by
      simp only [List.length_drop]
      omega
    simp only [splitBySizes, List.flatten_cons, splitBySizes_flatten ss (l.drop s) hrec,
      List.take_append_drop]

theorem splitBySizes_length (ss : List Nat) (l : List α) :
    (splitBySizes ss l).length = ss.length := by
  induction ss generalizing l with
  | nil => rfl
  | cons s ss ih => simp [splitBySizes, ih]

theorem splitBySizes_ne_nil :
    ∀ (ss : List Nat) (l : List α), ss.sum = l.length → (∀ s ∈ ss, 0 < s) →
      ∀ c ∈ splitBySizes ss l, c ≠ []
  | [], _, _, _, c, hc => absurd hc (by simp [splitBySizes])
  | s :: ss, l, h, hpos, c, hc => by
    simp only [List.sum_cons] at h
    simp only [splitBySizes, List.mem_cons] at hc
    rcases hc with rfl | hc
    · have hs : 0 < s := hpos s (List.mem_cons_self s ss)
      intro hnil
      have hlen := congrArg List.length hnil
      simp only [List.length_take, List.length_nil] at hlen
      omega
    · exact splitBySizes_ne_nil ss (l.drop s)
        (by simp only [List.length_drop]; omega)
        (fun x hx => hpos x (List.mem_cons_of_mem s hx)) c hc

theorem blockSizes_sum (n P : Nat) (hP : 0 < P) : (blockSizes n P).sum = n := by
  have key : ∀ (q r k : Nat),
      ((List.range k).map (fun i => q + if i < r then 1 else 0)).sum
        = k * q + min r k := by
    intro q r k
    induction k with
    | zero => simp
    | succ k ih =>
      have hmin : min r (k + 1) = min r k + (if k < r then 1 else 0) := by
        split_ifs <;> omega
      rw [List.range_succ, List.map_append, List.sum_append, ih, Nat.succ_mul,
        hmin]
      simp only [List.map_cons, List.map_nil, List.sum_cons, List.sum_nil]
      ring
  rw [blockSizes, key, Nat.min_eq_left (Nat.le_of_lt (Nat.mod_lt n hP))]
  exact Nat.div_add_mod n P

theorem blockSizes_pos {n P : Nat} (hP : 0 < P) (hPn : P ≤ n) :
    ∀ s ∈ blockSizes n P, 0 < s := by
  intro s hs
  simp only [blockSizes, List.mem_map, List.mem_range] at hs
  obtain ⟨i, _, rfl⟩ := hs
  have : 0 < n / P := Nat.div_pos hPn hP
  split_ifs <;> omega

theorem effectiveWorkers_pos (P n : Nat) : 0 < effectiveWorkers P n := by
  simp [effectiveWorkers]

theorem effectiveWorkers_le {P n : Nat} (hn : 0 < n) :
    effectiveWorkers P n ≤ n := by
  simp only [effectiveWorkers]
  omega

theorem decompose_flatten (P : Nat) (idx : List Int) :
    (decompose P idx).flatten = idx := by
  apply splitBySizes_flatten
  exact blockSizes_sum idx.length (effectiveWorkers P idx.length)
    (effectiveWorkers_pos P idx.length)

theorem decompose_ne_nil {P : Nat} {idx : List Int} (h : 0 < idx.length) :
    ∀ c ∈ decompose P idx, c ≠ [] := by
  apply splitBySizes_ne_nil
  · exact blockSizes_sum idx.length (effectiveWorkers P idx.length)
      (effectiveWorkers_pos P idx.length)
  · exact blockSizes_pos (effectiveWorkers_pos P idx.length)
      (effectiveWorkers_le h)

theorem decompose_length_pos {P : Nat} {idx : List Int} :
    0 < (decompose P idx).length := by
  rw [decompose, splitBySizes_length, blockSizes]
  simp [effectiveWorkers_pos P idx.length]

/-- Pure shape of one pairwise binary-tree combine round. -/
def pairFold (op : α → α → α) : List α → List α
  | [] => []
  | [x] => [x]
  | x :: y :: rest => op x y :: pairFold op rest

theorem pairPass_pure {combine : α → α → Option α} {op : α → α → α}
    (hc : ∀ a b, combine a b = some (op a b)) :
    ∀ l : List α, pairPass combine l = some (pairFold op l)
  | [] => rfl
  | [x] => rfl
  | x :: y :: rest => by
    simp [pairPass, hc x y, pairPass_pure hc rest, pairFold]

theorem pairFold_length (op : α → α → α) :
    ∀ l : List α, (pairFold op l).length = (l.length + 1) / 2
  | [] => by simp [pairFold]
  | [x] => by simp [pairFold]
  | x :: y :: rest => by
    simp only [pairFold, List.length_cons, pairFold_length op rest]
    omega

theorem pairFold_ne_nil {op : α → α → α} :
    ∀ {l : List α}, l ≠ [] → pairFold op l ≠ []
  | [], h => absurd rfl h
  | [_], _ => by simp [pairFold]
  | _ :: _ :: _, _ => by simp [pairFold]

theorem foldl_op_assoc {op : α → α → α}
    (hassoc : ∀ a b c, op (op a b) c = op a (op b c)) :
    ∀ (l : List α) (a x : α),
      List.foldl op (op a x) l = op a (List.foldl op x l)
  | [], _, _ => rfl
  | y :: l, a, x => by
    simp only [List.foldl_cons]
    rw [hassoc a x y]
    exact foldl_op_assoc hassoc l a (op x y)

theorem foldl_pairFold {op : α → α → α}
    (hassoc : ∀ a b c, op (op a b) c = op a (op b c)) :
    ∀ (l : List α) (a : α),
      List.foldl op a (pairFold op l) = List.foldl op a l
  | [], _ => rfl
  | [_], _ => rfl
  | x :: y :: rest, a => by
    simp only [pairFold, List.foldl_cons]
    rw [foldl_pairFold hassoc rest (op a (op x y)), hassoc a x y]

theorem fold1_pairFold {op : α → α → α}
    (hassoc : ∀ a b c, op (op a b) c = op a (op b c)) :
    ∀ l : List α, fold1 op (pairFold op l) = fold1 op l
  | [] => rfl
  | [_] => rfl
  | x :: y :: rest => by
    simp only [pairFold, fold1, List.foldl_cons]
    rw [foldl_pairFold hassoc rest (op x y)]

theorem treeCombineAux_pure {combine : α → α → Option α} {op : α → α → α}
    (hc : ∀ a b, combine a b = some (op a b))
    (hassoc : ∀ a b c, op (op a b) c = op a (op b c)) :
    ∀ (fuel : Nat) (l : List α), l ≠ [] → l.length ≤ fuel + 1 →
      treeCombineAux combine fuel l = fold1 op l := by
  intro fuel
  induction fuel with
  | zero =>
    intro l hne hlen
    rcases l with _ | ⟨x, _ | ⟨y, rest⟩⟩
    · exact absurd rfl hne
    · rfl
    · simp at hlen
  | succ fuel ih =>
    intro l hne hlen
    rcases l with _ | ⟨x, _ | ⟨y, rest⟩⟩
    · exact absurd rfl hne
    · rfl
    · have h1 : pairFold op (x :: y :: rest) ≠ [] := pairFold_ne_nil (by simp)
      have h2 : (pairFold op (x :: y :: rest)).length ≤ fuel + 1 := by
        rw [pairFold_length]
        simp only [List.length_cons] at hlen ⊢
        omega
      simp only [treeCombineAux, pairPass_pure hc]
      rw [ih _ h1 h2, fold1_pairFold hassoc]

theorem treeCombine_pure {combine : α → α → Option α} {op : α → α → α}
    (hc : ∀ a b, combine a b = some (op a b))
    (hassoc : ∀ a b c, op (op a b) c = op a (op b c))
    (l : List α) (hne : l ≠ []) :
    treeCombine combine l = fold1 op l :=
  treeCombineAux_pure hc hassoc l.length l hne (by omega)

theorem fold1_eq_none_iff (op : α → α → α) (l : List α) :
    fold1 op l = none ↔ l = [] := by
  cases l <;> simp [fold1]

theorem fold1_cons_append {op : α → α → α}
    (hassoc : ∀ a b c, op (op a b) c = op a (op b c))
    {v1 : List α} {p : α} (h1 : fold1 op v1 = some p)
    {l2 : List α} {ps : List α} (h2 : fold1 op ps = fold1 op l2) :
    fold1 op (p :: ps) = fold1 op (v1 ++ l2) := by
  rcases v1 with _ | ⟨v, vs⟩
  · exact absurd h1 (by simp [fold1])
  have hp : List.foldl op v vs = p := by
    simpa [fold1] using h1
  rcases ps with _ | ⟨w, ws⟩
  · have hl2 : l2 = [] := by
      rw [← fold1_eq_none_iff op l2, ← h2]
      rfl
    subst hl2
    simp [fold1, List.append_nil, hp]
  · rcases l2 with _ | ⟨u, us⟩
    · exact absurd h2.symm (by simp [fold1])
    have hval : List.foldl op w ws = List.foldl op u us := by
      simpa [fold1] using h2
    have hL : List.foldl op p (w :: ws) = op p (List.foldl op u us) := by
      rw [List.foldl_cons, foldl_op_assoc hassoc ws p w, hval]
    have hR : List.foldl op v (vs ++ u :: us) = op p (List.foldl op u us) := by
      rw [List.foldl_append, hp, List.foldl_cons, foldl_op_assoc hassoc us p u]
    simp only [fold1, List.cons_append]
    exact congrArg some (hL.trans hR.symm)

theorem traverseOption_blockFold {fetch : Int → Option α} {f : Int → α}
    {combine : α → α → Option α} {op : α → α → α}
    (hc : ∀ a b, combine a b = some (op a b))
    (hassoc : ∀ a b c, op (op a b) c = op a (op b c)) :
    ∀ {chunks : List (List Int)},
      (∀ c ∈ chunks, ∀ i ∈ c, fetch i = some (f i)) →
      (∀ c ∈ chunks, c ≠ []) →
      ∃ ps : List α,
        traverseOption (blockFold fetch combine) chunks = some ps ∧
        fold1 op ps = fold1 op (chunks.flatten.map f)
  | [], _, _ => ⟨[], rfl, by simp⟩
  | c :: cs, hf, hne => by
    obtain ⟨ps', htr', hfold'⟩ := traverseOption_blockFold hc hassoc
      (fun x hx => hf x (List.mem_cons_of_mem c hx))
      (fun x hx => hne x (List.mem_cons_of_mem c hx))
    have hcne : c ≠ [] := hne c (List.mem_cons_self c cs)
    have hbf : blockFold fetch combine c = fold1 op (c.map f) :=
      blockFold_pure hc (hf c (List.mem_cons_self c cs))
    rcases hmap : c.map f with _ | ⟨v, vs⟩
    · exact absurd (List.map_eq_nil_iff.mp hmap) hcne
    have hp : blockFold fetch combine c = some (List.foldl op v vs) := by
      rw [hbf, hmap]
      rfl
    refine ⟨List.foldl op v vs :: ps', ?_, ?_⟩
    · simp [traverseOption, hp, htr']
    · have h1 : fold1 op (c.map f) = some (List.foldl op v vs) := by
        rw [hmap]
        rfl
      have := fold1_cons_append hassoc h1 hfold'
      simpa [List.map_append] using this

theorem indicesOf_ne_nil {start stop : Int} (h : start < stop) :
    indicesOf start stop ≠ [] := by
  have : 0 < (indicesOf start stop).length := by
    rw [indicesOf_length]
    omega
  exact List.ne_nil_of_length_pos this

theorem parFold_pure {fetch : Int → Option α} {f : Int → α}
    {combine : α → α → Option α} {op : α → α → α} {P : Nat}
    (hc : ∀ a b, combine a b = some (op a b))
    (hassoc : ∀ a b c, op (op a b) c = op a (op b c))
    {idx : List Int} (hf : ∀ i ∈ idx, fetch i = some (f i))
    (hne : idx ≠ []) :
    parFold P fetch combine idx = fold1 op (idx.map f) := by
  have hlen : 0 < idx.length := List.length_pos.mpr hne
  have hflat : (decompose P idx).flatten = idx := decompose_flatten P idx
  have hchunk_ne : ∀ c ∈ decompose P idx, c ≠ [] := decompose_ne_nil hlen
  have hchunk_f : ∀ c ∈ decompose P idx, ∀ i ∈ c, fetch i = some (f i) := by
    intro c hc' i hi
    apply hf
    rw [← hflat]
    exact List.mem_flatten.mpr ⟨c, hc', hi⟩
  obtain ⟨ps, htr, hfold⟩ :=
    traverseOption_blockFold hc hassoc hchunk_f hchunk_ne
  have hps_len : ps.length = (decompose P idx).length :=
    traverseOption_length htr
  have hps_ne : ps ≠ [] := by
    apply List.ne_nil_of_length_pos
    rw [hps_len]
    exact decompose_length_pos
  rw [parFold, htr]
  show treeCombine combine ps = fold1 op (List.map f idx)
  rw [treeCombine_pure hc hassoc ps hps_ne, hfold, hflat]

theorem reduceCompute_pure {target : ExecutionTarget}
    {fetch : Int → Option α} {f : Int → α}
    {combine : α → α → Option α} {op : α → α → α}
    (hc : ∀ a b, combine a b = some (op a b))
    (hassoc : ∀ a b c, op (op a b) c = op a (op b c))
    {idx : List Int} (hf : ∀ i ∈ idx, fetch i = some (f i))
    (hne : idx ≠ []) :
    reduceCompute target fetch combine idx = fold1 op (idx.map f) := by
  cases target with
  | SequentialHost => exact blockFold_pure hc hf
  | ParallelHost P => exact parFold_pure hc hassoc hf hne
  | Accelerator P => exact parFold_pure hc hassoc hf hne

theorem reduce_pure_eq_naive {target : ExecutionTarget} {start stop : Int}
    {fetch : Int → Option α} {combine : α → α → Option α}
    {identity : Option α} (f : Int → α) (op : α → α → α)
    (hassoc : ∀ a b c, op (op a b) c = op a (op b c))
    (hf : ∀ i ∈ indicesOf start stop, fetch i = some (f i))
    (hc : ∀ a b, combine a b = some (op a b)) :
    reduce target start stop fetch combine identity
      = naiveReduceSpec start stop f op identity := by
  by_cases hlt : stop < start
  · simp [reduce, naiveReduceSpec, hlt]
  · by_cases heq : start = stop
    · subst heq
      cases identity <;>
        simp [reduce, naiveReduceSpec, hlt, indicesOf_self]
    · have hne : indicesOf start stop ≠ [] := indicesOf_ne_nil (by omega)
      simp only [reduce, naiveReduceSpec, if_neg hlt, if_neg heq]
      rw [reduceCompute_pure hc hassoc hf hne]
      rcases hmap : (indicesOf start stop).map f with _ | ⟨v, vs⟩
      · exact absurd (List.map_eq_nil_iff.mp hmap) hne
      · simp [fold1]

theorem blockFold_fetch_none {fetch : Int → Option α}
    {combine : α → α → Option α} {block : List Int} {i : Int}
    (hi : i ∈ block) (hfi : fetch i = none) :
    blockFold fetch combine block = none := by
  rw [blockFold, traverseOption_none hi hfi]

theorem blockFold_combine_none {fetch : Int → Option α}
    {combine : α → α → Option α} {block : List Int}
    (hcomb : ∀ a b, combine a b = none) (hlen : 2 ≤ block.length) :
    blockFold fetch combine block = none := by
  rw [blockFold]
  cases htr : traverseOption fetch block with
  | none => rfl
  | some vs =>
    have hvs : vs.length = block.length := traverseOption_length htr
    rcases vs with _ | ⟨v, _ | ⟨w, rest⟩⟩
    · simp [← hvs] at hlen
    · rw [← hvs] at hlen
      simp at hlen
    · simp [foldLeftM, hcomb v w]

theorem treeCombine_combine_none {combine : α → α → Option α}
    {ps : List α} (hcomb : ∀ a b, combine a b = none)
    (hlen : 2 ≤ ps.length) :
    treeCombine combine ps = none := by
  rcases ps with _ | ⟨p1, _ | ⟨p2, r⟩⟩
  · simp at hlen
  · simp at hlen
  · show treeCombineAux combine (r.length + 1 + 1) (p1 :: p2 :: r) = none
    simp [treeCombineAux, pairPass, hcomb p1 p2]

theorem parFold_fetch_none {fetch : Int → Option α}
    {combine : α → α → Option α} {P : Nat} {idx : List Int} {i : Int}
    (hi : i ∈ idx) (hfi : fetch i = none) :
    parFold P fetch combine idx = none := by
  have hflat : (decompose P idx).flatten = idx := decompose_flatten P idx
  have : i ∈ (decompose P idx).flatten := by
    rw [hflat]
    exact hi
  obtain ⟨c, hc, hic⟩ := List.mem_flatten.mp this
  rw [parFold,
    traverseOption_none hc (blockFold_fetch_none hic hfi)]

theorem parFold_combine_none {fetch : Int → Option α}
    {combine : α → α → Option α} {P : Nat} {idx : List Int}
    (hcomb : ∀ a b, combine a b = none) (hlen : 2 ≤ idx.length) :
    parFold P fetch combine idx = none := by
  have hflat : (decompose P idx).flatten = idx := decompose_flatten P idx
  rcases hch : decompose P idx with _ | ⟨c, _ | ⟨c2, cs⟩⟩
  · have := @decompose_length_pos P idx
    rw [hch] at this
    simp at this
  · have hcidx : c = idx := by
      rw [hch] at hflat
      simpa using hflat
    rw [parFold, hch]
    rw [traverseOption_none (List.mem_cons_self c [])
      (blockFold_combine_none hcomb (by rw [hcidx]; exact hlen))]
  · rw [parFold]
    cases htr : traverseOption (blockFold fetch combine) (decompose P idx) with
    | none => rfl
    | some ps =>
      have hps : ps.length = (decompose P idx).length :=
        traverseOption_length htr
      rw [hch] at hps
      simp only [List.length_cons] at hps
      exact treeCombine_combine_none hcomb (by omega)

theorem reduceCompute_fetch_none {target : ExecutionTarget}
    {fetch : Int → Option α} {combine : α → α → Option α}
    {idx : List Int} {i : Int} (hi : i ∈ idx) (hfi : fetch i = none) :
    reduceCompute target fetch combine idx = none := by
  cases target with
  | SequentialHost => exact blockFold_fetch_none hi hfi
  | ParallelHost P => exact parFold_fetch_none hi hfi
  | Accelerator P => exact parFold_fetch_none hi hfi

theorem reduceCompute_combine_none {target : ExecutionTarget}
    {fetch : Int → Option α} {combine : α → α → Option α}
    {idx : List Int} (hcomb : ∀ a b, combine a b = none)
    (hlen : 2 ≤ idx.length) :
    reduceCompute target fetch combine idx = none := by
  cases target with
  | SequentialHost => exact blockFold_combine_none hcomb hlen
  | ParallelHost P => exact parFold_combine_none hcomb hlen
  | Accelerator P => exact parFold_combine_none hcomb hlen

/-- Modelled from the spec: the stateful embedding of the element
traversal. The underlying sequence (or any other ambient state) is an
explicit state value threaded through every `fetch` invocation, so that a
mutation performed by the engine or by `fetch` would be observable in the
returned state. -/
def traverseOptionSt (f : β → σ → Option α × σ) :
    List β → σ → Option (List α) × σ
  | [], s => (some [], s)
  | b :: bs, s =>
    match f b s with
    | (none, s1) => (none, s1)
    | (some v, s1) =>
      match traverseOptionSt f bs s1 with
      | (none, s2) => (none, s2)
      | (some vs, s2) => (some (v :: vs), s2)

/-- Modelled from the spec: the stateful worker fold of one block. -/
def blockFoldSt (fetch : Int → σ → Option α × σ)
    (combine : α → α → Option α) (block : List Int) (s : σ) :
    Option α × σ :=
  match traverseOptionSt fetch block s with
  | (none, s1) => (none, s1)
  | (some [], s1) => (none, s1)
  | (some (v :: vs), s1) => (foldLeftM combine v vs, s1)

/-- Modelled from the spec: the stateful device-parallel strategy; the
read-only sequence view is shared by all workers, modelled by threading
the state through the blocks. -/
def parFoldSt (P : Nat) (fetch : Int → σ → Option α × σ)
    (combine : α → α → Option α) (idx : List Int) (s : σ) :
    Option α × σ :=
  match traverseOptionSt (blockFoldSt fetch combine) (decompose P idx) s with
  | (none, s1) => (none, s1)
  | (some ps, s1) => (treeCombine combine ps, s1)

/-- Modelled from the spec: stateful target dispatch. -/
def reduceComputeSt (target : ExecutionTarget)
    (fetch : Int → σ → Option α × σ) (combine : α → α → Option α)
    (idx : List Int) (s : σ) : Option α × σ :=
  match target with
  | .SequentialHost => blockFoldSt fetch combine idx s
  | .ParallelHost P => parFoldSt P fetch combine idx s
  | .Accelerator P => parFoldSt P fetch combine idx s

/-- Modelled from the spec: the reduction engine with the underlying
sequence as explicit state; apart from the state threading it is the same
algorithm as `reduce`. -/
def reduceSt (target : ExecutionTarget) (start stop : Int)
    (fetch : Int → σ → Option α × σ) (combine : α → α → Option α)
    (identity : Option α) (s : σ) : Except ReduceError α × σ :=
  if stop < start then (.error .InvalidRangeError, s)
  else if start = stop then
    match identity with
    | some e => (.ok e, s)
    | none => (.error .EmptyReductionError, s)
  else
    match reduceComputeSt target fetch combine (indicesOf start stop) s with
    | (some v, s1) => (.ok v, s1)
    | (none, s1) => (.error .ElementComputationError, s1)

theorem traverseOptionSt_ro {f : β → σ → Option α × σ}
    {h : σ → β → Option α} (hf : ∀ b s0, f b s0 = (h s0 b, s0)) :
    ∀ (l : List β) (s : σ),
      traverseOptionSt f l s = (traverseOption (h s) l, s)
  | [], _ => rfl
  | b :: bs, s => by
    have hr := traverseOptionSt_ro hf bs s
    cases hb : h s b with
    | none => simp [traverseOptionSt, traverseOption, hf b s, hb]
    | some v =>
      cases hbs : traverseOption (h s) bs <;>
        simp [traverseOptionSt, traverseOption, hf b s, hb, hr, hbs]

theorem blockFoldSt_ro {fetch : Int → σ → Option α × σ}
    {h : σ → Int → Option α} {combine : α → α → Option α}
    (hf : ∀ b s0, fetch b s0 = (h s0 b, s0)) (block : List Int) (s : σ) :
    blockFoldSt fetch combine block s = (blockFold (h s) combine block, s) := by
  rw [blockFoldSt, traverseOptionSt_ro hf, blockFold]
  cases traverseOption (h s) block with
  | none => rfl
  | some vs => cases vs <;> rfl

theorem parFoldSt_ro {fetch : Int → σ → Option α × σ}
    {h : σ → Int → Option α} {combine : α → α → Option α} {P : Nat}
    (hf : ∀ b s0, fetch b s0 = (h s0 b, s0)) (idx : List Int) (s : σ) :
    parFoldSt P fetch combine idx s = (parFold P (h s) combine idx, s) := by
  rw [parFoldSt,
    traverseOptionSt_ro (fun c s0 => blockFoldSt_ro hf c s0), parFold]
  cases traverseOption (blockFold (h s) combine) (decompose P idx) <;> rfl

theorem reduceComputeSt_ro {target : ExecutionTarget}
    {fetch : Int → σ → Option α × σ} {h : σ → Int → Option α}
    {combine : α → α → Option α}
    (hf : ∀ b s0, fetch b s0 = (h s0 b, s0)) (idx : List Int) (s : σ) :
    reduceComputeSt target fetch combine idx s
      = (reduceCompute target (h s) combine idx, s) := by
  cases target with
  | SequentialHost => exact blockFoldSt_ro hf idx s
  | ParallelHost P => exact parFoldSt_ro hf idx s
  | Accelerator P => exact parFoldSt_ro hf idx s

theorem reduceSt_ro {target : ExecutionTarget} {start stop : Int}
    {fetch : Int → σ → Option α × σ} {h : σ → Int → Option α}
    {combine : α → α → Option α} {identity : Option α}
    (hf : ∀ b s0, fetch b s0 = (h s0 b, s0)) (s : σ) :
    reduceSt target start stop fetch combine identity s
      = (reduce target start stop (h s) combine identity, s) := by
  by_cases hlt : stop < start
  · simp [reduceSt, reduce, hlt]
  · by_cases heq : start = stop
    · cases identity <;> simp [reduceSt, reduce, hlt, heq]
    · rw [reduceSt.eq_def, if_neg hlt, if_neg heq, reduce.eq_def, if_neg hlt,
        if_neg heq, reduceComputeSt_ro hf]
      cases reduceCompute target (h s) combine (indicesOf start stop) <;> rfl

/-- The element access `view[ i ]` performed by the example's fetch lambda
on the const vector view: defined exactly for `0 <= i < getSize()`; an
access outside these bounds is the out-of-bounds error branch (`none`).
From `SumExampleWithFunctional.cpp`, line 21. -/
def viewGet (view : List ℚ) (i : Int) : Option ℚ :=
  if h : 0 ≤ i ∧ i.toNat < view.length then some (view.get ⟨i.toNat, h.2⟩)
  else none

/-- The `TNL::Plus{}` functional passed as the combine operation in the
example: addition (the C++ `double` element type is modelled exactly
by `ℚ`). From `SumExampleWithFunctional.cpp`, line 27. -/
def Plus (a b : ℚ) : Option ℚ := some (a + b)

/-- The example's `sum`: it takes the vector, gets its const view and calls
`reduce< Device >( 0, view.getSize(), fetch, TNL::Plus{} )` where the fetch
lambda reads `view[ i ]`; no separate identity argument appears in the
call. From `SumExampleWithFunctional.cpp`, lines 11-28. -/
def sum (target : ExecutionTarget) (v : List ℚ) : Except ReduceError ℚ :=
  reduce target 0 (v.length : Int) (fun i => viewGet v i) Plus none

/-- The example's fetch lambda as a stateful fetch: it reads the vector
(the state) through the const view and leaves it unchanged. -/
def fetchSt (i : Int) (v : List ℚ) : Option ℚ × List ℚ := (viewGet v i, v)

/-- The example's `sum` run over the stateful engine, with the vector as
the threaded state: a mutation of the vector by the call would show in the
second component of the result. -/
def sumSt (target : ExecutionTarget) (v : List ℚ) :
    Except ReduceError ℚ × List ℚ :=
  reduceSt target 0 (v.length : Int) fetchSt Plus none v

theorem sumSt_eq (target : ExecutionTarget) (v : List ℚ) :
    sumSt target v = (sum target v, v) := by
  have hf : ∀ (b : Int) (s0 : List ℚ), fetchSt b s0 = (viewGet s0 b, s0) :=
    fun _ _ => rfl
  rw [sumSt, reduceSt_ro hf v, sum]

theorem sum_eq_naive (target : ExecutionTarget) (v : List ℚ) :
    sum target v = naiveReduceSpec 0 (v.length : Int)
      (fun i => v.getD i.toNat 0) (fun a b => a + b) none := by
  apply reduce_pure_eq_naive
  · intro a b c
    ring
  · intro i hi
    rw [mem_indicesOf] at hi
    have h0 : 0 ≤ i := hi.1
    have h1 : i.toNat < v.length := by omega
    rw [viewGet, dif_pos ⟨h0, h1⟩]
    congr 1
    rw [List.getD_eq_getElem v 0 h1]
    simp [List.get_eq_getElem]
  · intro a b
    rfl

theorem foldl_add_replicate (k : Nat) (a : Int) :
    List.foldl (fun x y => x + y) a (List.replicate k 1) = a + k := by
  induction k generalizing a with
  | zero => simp
  | succ m ih =>
    rw [List.replicate_succ, List.foldl_cons, ih]
    push_cast
    ring

theorem naive_const_one (n : Nat) (hn : 1 ≤ n) :
    naiveReduceSpec 0 (n : Int) (fun _ => (1 : Int)) (fun a b => a + b) none
      = .ok (n : Int) := by
  have hlen : (indicesOf 0 (n : Int)).length = n := by
    rw [indicesOf_length]
    omega
  have hmap : (indicesOf 0 (n : Int)).map (fun _ => (1 : Int))
      = List.replicate n 1 := by
    rw [List.map_const', hlen]
  rw [naiveReduceSpec.eq_def, if_neg (by omega), hmap]
  rcases n with _ | m
  · omega
  · rw [List.replicate_succ]
    show Except.ok (List.foldl (fun a b => a + b) 1 (List.replicate m 1)) = _
    rw [foldl_add_replicate]
    congr 1
    push_cast
    ring

theorem naiveReduceSpec_ne_elementError {α : Type} (start stop : Int)
    (f : Int → α) (op : α → α → α) (identity : Option α) :
    naiveReduceSpec start stop f op identity
      ≠ .error .ElementComputationError := by
  rw [naiveReduceSpec.eq_def]
  split_ifs with h
  · simp
  · rcases hmap : (indicesOf start stop).map f with _ | ⟨v, vs⟩
    · cases identity <;> simp
    · simp

/-- C1: for every index range `[start, stop)` and every associative and
commutative combine, `reduce` under the `SequentialHost`, `ParallelHost`
and `Accelerator` targets returns the same value as the naive sequential
left-to-right fold of fetch over the range (`naiveReduceSpec`); the model
computes exactly, so the agreement is exact (the floating-point
reassociation tolerance is zero here). In particular the example's `sum`
yields the same value for the same element data under any two targets
(Host or Cuda device instantiation). -/
theorem C1_reduce_refines_naive_fold :
    (∀ (α : Type) (start stop : Int) (f : Int → α) (op : α → α → α),
      (∀ a b c, op (op a b) c = op a (op b c)) →
      (∀ a b, op a b = op b a) →
      ∀ (target : ExecutionTarget) (identity : Option α),
        reduce target start stop (fun i => some (f i))
            (fun a b => some (op a b)) identity
          = naiveReduceSpec start stop f op identity)
    ∧ ∀ (t1 t2 : ExecutionTarget) (v : List ℚ), sum t1 v = sum t2 v := by
  constructor
  · intro α start stop f op hassoc _ target identity
    exact reduce_pure_eq_naive f op hassoc (fun _ _ => rfl) (fun _ _ => rfl)
  · intro t1 t2 v
    rw [sum_eq_naive t1 v, sum_eq_naive t2 v]

/-- C1 witness: the parallel-host target with three workers over `[0, 5)`
with integer addition agrees with the naive fold, whose value is 10. -/
theorem C1_witness :
    (reduce (ExecutionTarget.ParallelHost 3) 0 5 (fun i => some i)
        (fun a b => some (a + b)) none
      = naiveReduceSpec 0 5 (fun (i : Int) => i) (fun a b => a + b) none)
    ∧ naiveReduceSpec 0 5 (fun (i : Int) => i) (fun a b => a + b) none
      = .ok 10 :=
  ⟨C1_reduce_refines_naive_fold.1 Int 0 5 (fun i => i) (fun a b => a + b)
      (by intro a b c; ring) (by intro a b; ring)
      (ExecutionTarget.ParallelHost 3) none,
    by decide⟩

/-- C2: if fetch faults on some index of the range, or combine faults,
during a reduce call, the whole call fails with `ElementComputationError`
for every target: the error is not swallowed and the caller receives the
tagged failure, never a partially folded value. -/
theorem C2_fault_propagates {α : Type} (target : ExecutionTarget)
    (start stop : Int) (fetch : Int → Option α)
    (combine : α → α → Option α) (identity : Option α)
    (h : (∃ i, start ≤ i ∧ i < stop ∧ fetch i = none)
        ∨ (start + 1 < stop ∧ ∀ a b, combine a b = none)) :
    reduce target start stop fetch combine identity
      = .error .ElementComputationError := by
  rcases h with ⟨i, h1, h2, hfi⟩ | ⟨hlen, hcomb⟩
  · have hlt : ¬ stop < start := by omega
    have hne : ¬ start = stop := by omega
    rw [reduce.eq_def, if_neg hlt, if_neg hne,
      reduceCompute_fetch_none (mem_indicesOf.mpr ⟨h1, h2⟩) hfi]
  · have hlt : ¬ stop < start := by omega
    have hne : ¬ start = stop := by omega
    have hlen2 : 2 ≤ (indicesOf start stop).length := by
      rw [indicesOf_length]
      omega
    rw [reduce.eq_def, if_neg hlt, if_neg hne,
      reduceCompute_combine_none hcomb hlen2]

/-- C2 witness: a fetch faulting at index 1 of `[0, 3)` makes the
sequential-host call fail with `ElementComputationError`. -/
theorem C2_witness :
    reduce ExecutionTarget.SequentialHost 0 3
        (fun i => if i = 1 then none else some i)
        (fun a b => some (a + b)) none
      = .error .ElementComputationError :=
  C2_fault_propagates _ _ _ _ _ _
    (Or.inl ⟨1, by decide, by decide, by decide⟩)

/-- C3: for every target and every pair of indices with `start > stop`, the
call fails with `InvalidRangeError` (it does not return a value). -/
theorem C3_invalid_range {α : Type} (target : ExecutionTarget)
    (start stop : Int) (fetch : Int → Option α)
    (combine : α → α → Option α) (identity : Option α)
    (h : stop < start) :
    reduce target start stop fetch combine identity
      = .error .InvalidRangeError := by
  rw [reduce.eq_def, if_pos h]

/-- C3 witness: `start = 1 > 0 = stop` on the accelerator target fails with
`InvalidRangeError`. -/
theorem C3_witness :
    reduce (ExecutionTarget.Accelerator 4) 1 0 (fun i => some i)
        (fun a b => some (a + b)) (some (0 : Int))
      = .error .InvalidRangeError :=
  C3_invalid_range (ExecutionTarget.Accelerator 4) 1 0 (fun i => some i)
    (fun a b => some (a + b)) (some 0) (by decide)

/-- C4: for every index `n`, every target and arbitrary fetch and combine,
reduce over the empty range `[n, n)` with a supplied identity `e` returns
exactly `e`; the result is the same for all fetch and combine functions,
so neither is ever consulted in that call. -/
theorem C4_empty_range_identity {α : Type} (target : ExecutionTarget)
    (n : Int) (fetch : Int → Option α) (combine : α → α → Option α)
    (e : α) :
    reduce target n n fetch combine (some e) = .ok e := by
  rw [reduce.eq_def, if_neg (lt_irrefl n), if_pos rfl]

/-- C5: for every target, a call with `start == stop` and no identity
supplied fails with `EmptyReductionError`; the example's call passes the
`TNL::Plus` functional as combine and no separate identity argument, which
the model treats as supplying no identity, so the example's sum of a
size-zero vector fails this way. -/
theorem C5_empty_range_no_identity {α : Type} (target : ExecutionTarget)
    (n : Int) (fetch : Int → Option α) (combine : α → α → Option α) :
    reduce target n n fetch combine none
      = .error .EmptyReductionError := by
  rw [reduce.eq_def, if_neg (lt_irrefl n), if_pos rfl]

/-- C6 counterexample: with `n = 0`, constant-1 fetch, addition and no
identity supplied, reduce does not return `0` as the claim requires: it
fails with `EmptyReductionError`. -/
theorem C6_counterexample :
    reduce ExecutionTarget.SequentialHost 0 0 (fun _ => some (1 : Int))
        (fun a b => some (a + b)) none
      = .error .EmptyReductionError
    ∧ reduce ExecutionTarget.SequentialHost 0 0 (fun _ => some (1 : Int))
        (fun a b => some (a + b)) none
      ≠ .ok 0 := by
  decide

/-- C6 (amended): for every `n >= 1` and every target, reduce over
`[0, n)` with constant-1 fetch and addition and no identity returns `n`;
for `n == 0` the call instead fails with `EmptyReductionError`, since no
identity is supplied for the empty fold. -/
theorem C6_count_amended (target : ExecutionTarget) (n : Nat) :
    (1 ≤ n → reduce target 0 (n : Int) (fun _ => some (1 : Int))
        (fun a b => some (a + b)) none = .ok (n : Int))
    ∧ reduce target 0 0 (fun _ => some (1 : Int))
        (fun a b => some (a + b)) none
      = .error .EmptyReductionError := by
  constructor
  · intro hn
    rw [reduce_pure_eq_naive (fun _ => (1 : Int)) (fun a b => a + b)
      (by intro a b c; ring) (fun _ _ => rfl) (fun _ _ => rfl)]
    exact naive_const_one n hn
  · rw [reduce.eq_def, if_neg (lt_irrefl 0), if_pos rfl]

/-- C6 witness: counting over `[0, 3)` on the accelerator target yields 3. -/
theorem C6_witness :
    reduce (ExecutionTarget.Accelerator 2) 0 ((3 : Nat) : Int)
        (fun _ => some (1 : Int)) (fun a b => some (a + b)) none
      = .ok ((3 : Nat) : Int) :=
  (C6_count_amended (ExecutionTarget.Accelerator 2) 3).1 (by decide)

/-- C7: a reduce call has no side effects other than invoking fetch and
combine: over the stateful engine, whenever fetch only reads the threaded
state, the state after the call equals the state before it, for every
target (and the engine itself, being a function of its arguments alone,
keeps no state across calls); in particular the example's `sum`, whose
fetch reads the vector only through its const view, leaves the vector's
contents unchanged. -/
theorem C7_no_side_effects :
    (∀ (σ α : Type) (target : ExecutionTarget) (start stop : Int)
        (fetch : Int → σ → Option α × σ) (combine : α → α → Option α)
        (identity : Option α) (s : σ),
        (∀ i s0, (fetch i s0).2 = s0) →
        (reduceSt target start stop fetch combine identity s).2 = s)
    ∧ ∀ (target : ExecutionTarget) (v : List ℚ), (sumSt target v).2 = v := by
  constructor
  · intro σ α target start stop fetch combine identity s hro
    have hf : ∀ b s0, fetch b s0 = ((fetch b s0).1, s0) :=
      fun b s0 => Prod.ext rfl (hro b s0)
    rw [reduceSt_ro (h := fun s0 i => (fetch i s0).1) hf s]
  · intro target v
    rw [sumSt_eq]

/-- C7 witness: the example's read-only fetch over the vector `[1, 2]`
leaves the state untouched. -/
theorem C7_witness :
    (reduceSt ExecutionTarget.SequentialHost 0 2 fetchSt Plus none
        [(1 : ℚ), 2]).2 = [(1 : ℚ), 2] :=
  C7_no_side_effects.1 (List ℚ) ℚ ExecutionTarget.SequentialHost 0 2
    fetchSt Plus none [(1 : ℚ), 2] (fun _ _ => rfl)

/-- C8: reduce is deterministic (idempotent): with a read-only fetch and
therefore unchanged underlying data, running the identical call again on
the state left by the first call produces the identical result and state —
the engine is a fixed function of `(start, stop, P)` and its function
arguments, with a deterministic decomposition and combine topology. -/
theorem C8_deterministic {σ α : Type} (target : ExecutionTarget)
    (start stop : Int) (fetch : Int → σ → Option α × σ)
    (combine : α → α → Option α) (identity : Option α) (s : σ)
    (hro : ∀ i s0, (fetch i s0).2 = s0) :
    reduceSt target start stop fetch combine identity
        ((reduceSt target start stop fetch combine identity s).2)
      = reduceSt target start stop fetch combine identity s := by
  have hf : ∀ b s0, fetch b s0 = ((fetch b s0).1, s0) :=
    fun b s0 => Prod.ext rfl (hro b s0)
  have h2 : (reduceSt target start stop fetch combine identity s).2 = s := by
    rw [reduceSt_ro (h := fun s0 i => (fetch i s0).1) hf s]
  rw [h2]

/-- C8 witness: repeating the example's call on the vector `[1, 2]` over
two parallel workers returns the identical result and state. -/
theorem C8_witness :
    reduceSt (ExecutionTarget.ParallelHost 2) 0 2 fetchSt Plus none
        ((reduceSt (ExecutionTarget.ParallelHost 2) 0 2 fetchSt Plus none
          [(1 : ℚ), 2]).2)
      = reduceSt (ExecutionTarget.ParallelHost 2) 0 2 fetchSt Plus none
          [(1 : ℚ), 2] :=
  C8_deterministic (ExecutionTarget.ParallelHost 2) 0 2 fetchSt Plus none
    [(1 : ℚ), 2] (fun _ _ => rfl)

/-- C9: for every target, `reduce(target, 0, 10, fetch = (i -> i),
combine = add, identity = 0)` returns exactly 45. -/
theorem C9_sum_first_ten (target : ExecutionTarget) :
    reduce target 0 10 (fun i => some i) (fun a b => some (a + b))
        (some (0 : Int)) = .ok 45 := by
  rw [reduce_pure_eq_naive (fun i => i) (fun a b => a + b)
    (by intro a b c; ring) (fun _ _ => rfl) (fun _ _ => rfl)]
  decide

/-- C10: in the example's `sum`, the engine invokes the fetch closure only
for indices `i` with `0 <= i < view.getSize()`, so every access `view[ i ]`
is in bounds and the fetch's out-of-bounds error branch is unreachable: for
every vector and every target, the call never fails with
`ElementComputationError`, which is the only way a fetch fault surfaces. -/
theorem C10_fetch_total (target : ExecutionTarget) (v : List ℚ) :
    sum target v ≠ .error .ElementComputationError := by
  rw [sum_eq_naive]
  exact naiveReduceSpec_ne_elementError _ _ _ _ _

end TNL
